import Mathlib

/-!
Verification of the stochastic-model construction and trajectory simulation
core of `fret_hmm.py` (photon-tools).

The embedding below mirrors the Python source.  Probabilities and emission
values (Python floats / numpy arrays) are modelled as rationals `ℚ` (every
IEEE float is a rational).  The ambient random sources (`random.random()`,
`numpy.random.random_sample`, `numpy.random.randint`, `numpy.random.poisson`)
are modelled as explicit streams, consumed in exactly the order the source
consumes them:

* `ur : ℕ → ℚ` — successive results of Python's `random.random()`;
* `us : ℕ → ℚ` — successive results of numpy's `random_sample`;
* `ri : ℕ → ℕ` — successive results of numpy's `randint(0, 1500)`;
* `pois : ℕ → List ℚ → List ℚ` — the Poisson sampler: at step `i`, given a
  rate row, it returns the sampled count row.

A Python exception (`RuntimeError` in `weighted_choice`, propagated through
`random_data`) is modelled as `Option.none`.
-/

namespace FretHmm

/-- Model: embedding of `Model = namedtuple('Model', 'n_states n_obs start_prob trans_prob emissions')`. -/
structure Model where
  n_states : ℕ
  n_obs : ℕ
  start_prob : List ℚ
  trans_prob : List (List ℚ)
  emissions : List (List ℚ)
deriving DecidableEq, Repr

/-- Loop body of `weighted_choice`: walk `zip(choices, probs)`, returning the
first outcome whose weight exceeds the remaining `r`, subtracting otherwise;
falling off the end is the `raise RuntimeError()` path, modelled as `none`. -/
def wcAux {α : Type} : List (α × ℚ) → ℚ → Option α
  | [], _ => none
  | (c, p) :: rest, r => if r < p then some c else wcAux rest (r - p)

/-- weighted_choice(choices, probs) with the uniform draw `r` (the source's
`random.random()`) passed explicitly. -/
def weighted_choice {α : Type} (choices : List α) (probs : List ℚ) (r : ℚ) : Option α :=
  wcAux (choices.zip probs) r

/-- random_model_from_emissions(emissions) for a 2-D emissions matrix
(`emissions.shape == (n_states, n_obs)`); numpy's `.shape` components become
the outer length and the length of row 0.  `ur`/`us` are the two ambient
random streams; draws are consumed in source order: `random_sample(n_states)`
for `start_prob`, then per row `i` one `random.random()` (the stay
probability) and one `random_sample(n_states)`. -/
def random_model_from_emissions (emissions : List (List ℚ)) (ur us : ℕ → ℚ) : Model :=
  let n_states := emissions.length
  let n_obs := (emissions.getD 0 []).length
  let sdraws := (List.range n_states).map us
  let start_prob := sdraws.map (fun x => x / sdraws.sum)
  let trans_prob := (List.range n_states).map (fun i =>
    let stay := ur i
    let t := ((List.range n_states).map
      (fun j => stay * us (n_states + i * n_states + j))).set i stay
    t.map (fun x => x / t.sum))
  ⟨n_states, n_obs, start_prob, trans_prob, emissions⟩

/-- random_model_from_emissions on a 1-D input: the source reshapes a flat
length-`M` vector to an `M × 1` matrix before proceeding. -/
def random_model_from_emissions_vec (v : List ℚ) (ur us : ℕ → ℚ) : Model :=
  random_model_from_emissions (v.map (fun x => [x])) ur us

/-- random_model(n_states, n_obs): draw an `n_states × n_obs` emissions matrix
from `randint(0, 1500)` (stream `ri`, consumed row-major) and delegate to
`random_model_from_emissions`. -/
def random_model (n_states n_obs : ℕ) (ri : ℕ → ℕ) (ur us : ℕ → ℚ) : Model :=
  let emissions := (List.range n_states).map
    (fun i => (List.range n_obs).map (fun j => ((ri (i * n_obs + j) : ℚ))))
  random_model_from_emissions emissions ur us

/-- dwells[old_state].append(dwell): append a completed dwell length to the
per-state list at index `s`. -/
def appendDwell (dwells : List (List ℕ)) (s : ℕ) (d : ℕ) : List (List ℕ) :=
  dwells.set s (dwells.getD s [] ++ [d])

/-- The `for i in xrange(length)` loop of random_data, recursing over the
list of remaining step indices (step `i` draws `u (i+1)`; draw 0 picked the
initial state).  The remaining arguments are the current `state` and the
accumulators `data`, `state_seq`, `dwells`, `dwell`.  The final component of
the result is the value of the `state` variable after the loop (the sampled
next state that was never appended). -/
def simLoop (model : Model) (noise : Bool) (u : ℕ → ℚ) (pois : ℕ → List ℚ → List ℚ) :
    List ℕ → ℕ → List (List ℚ) → List ℕ → List (List ℕ) → ℕ →
    Option (List (List ℚ) × List ℕ × List (List ℕ) × ℕ)
  | [], state, data, seq, dwells, _ => some (data, seq, dwells, state)
  | i :: is, state, data, seq, dwells, dwell =>
    let datum := model.emissions.getD state []
    let datum := if noise then pois i datum else datum
    match weighted_choice (List.range model.n_states) (model.trans_prob.getD state []) (u (i + 1)) with
    | none => none
    | some next =>
      if next ≠ state then
        simLoop model noise u pois is next (data ++ [datum]) (seq ++ [state])
          (appendDwell dwells state dwell) 1
      else
        simLoop model noise u pois is next (data ++ [datum]) (seq ++ [state])
          dwells (dwell + 1)

/-- random_data(model, length, noise), additionally exposing the final value
of the internal `state` variable (the state sampled at the last step but never
appended to `state_seq`).  `length` is a Python int, so `ℤ`; `xrange(length)`
iterates over `length.toNat` indices.  `u` is the `random.random()` stream
consumed by the `weighted_choice` calls; `pois` is numpy's Poisson sampler. -/
def random_data_full (model : Model) (length : ℤ) (noise : Bool) (u : ℕ → ℚ)
    (pois : ℕ → List ℚ → List ℚ) :
    Option (List (List ℚ) × List ℕ × List (List ℕ) × ℕ) :=
  match weighted_choice (List.range model.n_states) model.start_prob (u 0) with
  | none => none
  | some s0 =>
    simLoop model noise u pois (List.range length.toNat) s0 [] [] (List.replicate model.n_states []) 0

/-- random_data(model, length, noise): returns `(data, state_seq, dwells)`,
or `none` on the `RuntimeError` path of `weighted_choice`. -/
def random_data (model : Model) (length : ℤ) (noise : Bool) (u : ℕ → ℚ)
    (pois : ℕ → List ℚ → List ℚ) :
    Option (List (List ℚ) × List ℕ × List (List ℕ)) :=
  (random_data_full model length noise u pois).map (fun r => (r.1, r.2.1, r.2.2.1))

/-- The deterministic alternating 2-state model of the spec's concrete
scenario: emissions `[[10,0],[0,20]]`, transitions `[[0,1],[1,0]]`,
start `[1,0]`. -/
def alternatingModel : Model :=
  ⟨2, 2, [1, 0], [[0, 1], [1, 0]], [[10, 0], [0, 20]]⟩

/-- The degenerate 2-state model of the spec's dwell-accounting scenario:
state 0 always self-transitions (`trans_prob[0][0] = 1`), start `[1,0]`. -/
def selfLoopModel : Model :=
  ⟨2, 2, [1, 0], [[1, 0], [0, 1]], [[10, 0], [0, 20]]⟩

/-- A constant stand-in for the uniform stream, used at concrete inputs. -/
def uZero : ℕ → ℚ := fun _ => 0

/-- A trivial Poisson oracle (identity), used at concrete inputs where
noise is disabled and the oracle is never consulted. -/
def poisId : ℕ → List ℚ → List ℚ := fun _ d => d

/-- One step of run-length encoding, with the run list kept in reverse order
(most recent run first): push `x` onto the encoding. -/
def rleRevStep (acc : List (ℕ × ℕ)) (x : ℕ) : List (ℕ × ℕ) :=
  match acc with
  | [] => [(x, 1)]
  | (y, k) :: rest => if x = y then (y, k + 1) :: rest else (x, 1) :: (y, k) :: rest

/-- Run-length encoding of a state chain, most recent run first:
`rleRev [0,0,1] = [(1,1),(0,2)]`. -/
def rleRev (l : List ℕ) : List (ℕ × ℕ) := l.foldl rleRevStep []

/-- The completed dwell runs of a state chain, in chronological order: every
run except the final (still in progress) one.  Used to state the dwell
accounting of `random_data` against the chain `state_seq ++ [final state]`. -/
def completedRuns (chain : List ℕ) : List (ℕ × ℕ) := (rleRev chain).tail.reverse

/-- Record a list of completed runs `(state, length)` into per-state dwell
lists, each at its true length. -/
def recordRunsAux (acc : List (List ℕ)) : List (ℕ × ℕ) → List (List ℕ)
  | [] => acc
  | (s, l) :: rest => recordRunsAux (appendDwell acc s l) rest

/-- Record completed runs into `n` per-state dwell lists the way the source's
post-check increment does: the first completed run is recorded as its true
length minus one, every later completed run at its true length. -/
def recordRuns (n : ℕ) : List (ℕ × ℕ) → List (List ℕ)
  | [] => List.replicate n []
  | (s, l) :: rest => recordRunsAux (appendDwell (List.replicate n []) s (l - 1)) rest

lemma wcAux_success {α : Type} :
    ∀ (l : List (α × ℚ)) (r : ℚ), 0 ≤ r → r < (l.map Prod.snd).sum →
      ∃ c, wcAux l r = some c ∧ c ∈ l.map Prod.fst := by
  intro l
  induction l with
  | nil =>
    intro r h0 hr
    simp only [List.map_nil, List.sum_nil] at hr
    exact absurd hr (not_lt.mpr h0)
  | cons hd tl ih =>
    intro r h0 hr
    obtain ⟨c, p⟩ := hd
    by_cases hcp : r < p
    · exact ⟨c, by simp [wcAux, hcp], by simp⟩
    · push_neg at hcp
      have h0' : 0 ≤ r - p := sub_nonneg.mpr hcp
      have hr' : r - p < (tl.map Prod.snd).sum := by
        simp only [List.map_cons, List.sum_cons] at hr
        linarith
      obtain ⟨c', hc', hmem⟩ := ih (r - p) h0' hr'
      exact ⟨c', by simp [wcAux, not_lt.mpr hcp, hc'], by simp [hmem]⟩

lemma weighted_choice_success (n : ℕ) (probs : List ℚ) (r : ℚ)
    (hlen : probs.length = n) (hsum : probs.sum = 1) (h0 : 0 ≤ r) (h1 : r < 1) :
    ∃ c, weighted_choice (List.range n) probs r = some c ∧ c < n := by
  have hzl : ((List.range n).zip probs).map Prod.snd = probs :=
    List.map_snd_zip _ _ (by simp [hlen])
  have hzf : ((List.range n).zip probs).map Prod.fst = List.range n :=
    List.map_fst_zip _ _ (by simp [hlen])
  obtain ⟨c, hc, hmem⟩ := wcAux_success ((List.range n).zip probs) r h0
    (by rw [hzl, hsum]; exact h1)
  rw [hzf] at hmem
  exact ⟨c, hc, List.mem_range.mp hmem⟩

/-- C1: contrary to the claim, the categorical sampler can fail on a
non-negative weight vector whose sum is within `1e-9` of 1: with the single
weight `1 - 1e-10` and the uniform draw `r = 1 - 1e-11 ∈ [0,1)`, the walk is
exhausted and the source raises `RuntimeError` (modelled as `none`).
Moreover an empty vector takes the same plain `RuntimeError` path (there is
no `InvalidDistribution` error in the code), and a negative weight does not
make the sampler fail at all. -/
theorem c1_sampler_fails_on_rounding_residue :
    weighted_choice [0] [1 - 1 / 10 ^ 10] (1 - 1 / 10 ^ 11) = (none : Option ℕ) ∧
    weighted_choice ([] : List ℕ) ([] : List ℚ) 0 = none ∧
    weighted_choice [0, 1] [-(1 / 2), 3 / 2] (1 / 5) = some 1 := by
  refine ⟨?_, by simp [weighted_choice, wcAux], ?_⟩
  · norm_num [weighted_choice, wcAux]
  · norm_num [weighted_choice, wcAux]

/-- C2 (counterexample): in the concrete alternating scenario
(`emissions=[[10,0],[0,20]]`, `trans_prob=[[0,1],[1,0]]`, `start_prob=[1,0]`,
no noise, `L=4`) the simulator does produce `state_sequence=[0,1,0,1]` and the
claimed observations, but the dwell lists are `{0:[0,1],1:[1,1]}`, not the
claimed `{0:[1],1:[1]}`. -/
theorem c2_counterexample :
    random_data alternatingModel 4 false uZero poisId =
      some ([[10, 0], [0, 20], [10, 0], [0, 20]], [0, 1, 0, 1], [[0, 1], [1, 1]]) ∧
    random_data alternatingModel 4 false uZero poisId ≠
      some ([[10, 0], [0, 20], [10, 0], [0, 20]], [0, 1, 0, 1], [[1], [1]]) := by
  have h : random_data alternatingModel 4 false uZero poisId =
      some ([[10, 0], [0, 20], [10, 0], [0, 20]], [0, 1, 0, 1], [[0, 1], [1, 1]]) := by
    simp [random_data, random_data_full, simLoop, weighted_choice, wcAux, appendDwell,
      alternatingModel, uZero, List.range, List.range.loop]
  refine ⟨h, ?_⟩
  rw [h]
  simp

/-- C2 (amended): in the concrete alternating scenario with `L=4`, whatever
values the uniform draws take in `[0,1)`, the simulator returns
`state_sequence=[0,1,0,1]`, `observations=[[10,0],[0,20],[10,0],[0,20]]`, and
`dwells={0:[0,1],1:[1,1]}`: each state completes two single-step runs, the
first completed run is recorded as 0 (its true length minus one) because the
dwell counter is incremented after the transition check, and state 1's final
run is flushed because a next state is sampled at the last step as well. -/
theorem c2_alternating_scenario (u : ℕ → ℚ) (h : ∀ i, 0 ≤ u i ∧ u i < 1)
    (pois : ℕ → List ℚ → List ℚ) :
    random_data alternatingModel 4 false u pois =
      some ([[10, 0], [0, 20], [10, 0], [0, 20]], [0, 1, 0, 1], [[0, 1], [1, 1]]) := by
  have hA : ∀ i, ¬ u i < 0 := fun i => not_lt.mpr (h i).1
  have hB : ∀ i, u i < 1 := fun i => (h i).2
  simp [random_data, random_data_full, simLoop, weighted_choice, wcAux, appendDwell,
    alternatingModel, List.range, List.range.loop, hA, hB]

/-- C2 (witness): the amended scenario theorem instantiated at the constant
zero draw stream. -/
theorem c2_alternating_scenario_witness :
    random_data alternatingModel 4 false uZero poisId =
      some ([[10, 0], [0, 20], [10, 0], [0, 20]], [0, 1, 0, 1], [[0, 1], [1, 1]]) :=
  c2_alternating_scenario uZero (fun _ => ⟨le_refl 0, by norm_num [uZero]⟩) poisId

/-- C5: in the degenerate scenario (state 0 always self-transitions,
`start_prob=[1,0]`, no noise, `L=5`), whatever values the uniform draws take
in `[0,1)`, the simulator returns `state_sequence=[0,0,0,0,0]` and
`dwells={0:[],1:[]}`: the run still in progress at the end of the trajectory
is never flushed into the dwell lists. -/
theorem c5_degenerate_dwells (u : ℕ → ℚ) (h : ∀ i, 0 ≤ u i ∧ u i < 1)
    (pois : ℕ → List ℚ → List ℚ) :
    random_data selfLoopModel 5 false u pois =
      some ([[10, 0], [10, 0], [10, 0], [10, 0], [10, 0]], [0, 0, 0, 0, 0], [[], []]) := by
  have hB : ∀ i, u i < 1 := fun i => (h i).2
  simp [random_data, random_data_full, simLoop, weighted_choice, wcAux, appendDwell,
    selfLoopModel, List.range, List.range.loop, hB]

/-- C5 (witness): the degenerate dwell scenario instantiated at the constant
zero draw stream. -/
theorem c5_degenerate_dwells_witness :
    random_data selfLoopModel 5 false uZero poisId =
      some ([[10, 0], [10, 0], [10, 0], [10, 0], [10, 0]], [0, 0, 0, 0, 0], [[], []]) :=
  c5_degenerate_dwells uZero (fun _ => ⟨le_refl 0, by norm_num [uZero]⟩) poisId

/-- C6: contrary to the claim, a non-positive length does not fail: for
`L = 0` and `L = -3` the simulator returns an empty trajectory (with the
per-state dwell lists already allocated) instead of an `InvalidLength`
error — no such error exists in the code. -/
theorem c6_nonpositive_length_returns_empty :
    random_data alternatingModel 0 false uZero poisId = some ([], [], [[], []]) ∧
    random_data alternatingModel (-3) false uZero poisId = some ([], [], [[], []]) := by
  constructor <;>
    simp [random_data, random_data_full, simLoop, weighted_choice, wcAux,
      alternatingModel, uZero, List.range, List.range.loop]

/-- C7: contrary to the claim, a degenerate emission matrix is accepted:
with zero rows the factory returns the empty `Model (0, 0, [], [], [])`, and
with one row of zero columns it returns a model with `n_obs = 0`; no
`InvalidShape` error exists in the code. -/
theorem c7_degenerate_shape_accepted :
    random_model_from_emissions [] uZero uZero = ⟨0, 0, [], [], []⟩ ∧
    (random_model_from_emissions [[]] uZero uZero).n_states = 1 ∧
    (random_model_from_emissions [[]] uZero uZero).n_obs = 0 := by
  refine ⟨?_, ?_, ?_⟩ <;>
    simp [random_model_from_emissions, uZero, List.range, List.range.loop]

lemma simLoop_cons_of_wc (model : Model) (noise : Bool) (u : ℕ → ℚ)
    (pois : ℕ → List ℚ → List ℚ) (i : ℕ) (is : List ℕ) (state : ℕ)
    (data : List (List ℚ)) (seq : List ℕ) (dwells : List (List ℕ)) (dwell : ℕ)
    (next : ℕ)
    (hwc : weighted_choice (List.range model.n_states) (model.trans_prob.getD state [])
      (u (i + 1)) = some next) :
    simLoop model noise u pois (i :: is) state data seq dwells dwell =
      if next ≠ state then
        simLoop model noise u pois is next
          (data ++ [if noise then pois i (model.emissions.getD state [])
                    else model.emissions.getD state []])
          (seq ++ [state]) (appendDwell dwells state dwell) 1
      else
        simLoop model noise u pois is next
          (data ++ [if noise then pois i (model.emissions.getD state [])
                    else model.emissions.getD state []])
          (seq ++ [state]) dwells (dwell + 1) := by
  simp only [simLoop, hwc]

lemma simLoop_cons_of_wc_none (model : Model) (noise : Bool) (u : ℕ → ℚ)
    (pois : ℕ → List ℚ → List ℚ) (i : ℕ) (is : List ℕ) (state : ℕ)
    (data : List (List ℚ)) (seq : List ℕ) (dwells : List (List ℕ)) (dwell : ℕ)
    (hwc : weighted_choice (List.range model.n_states) (model.trans_prob.getD state [])
      (u (i + 1)) = none) :
    simLoop model noise u pois (i :: is) state data seq dwells dwell = none := by
  simp only [simLoop, hwc]

lemma simLoop_shape (model : Model) (noise : Bool) (u : ℕ → ℚ)
    (pois : ℕ → List ℚ → List ℚ)
    (hu : ∀ j, 0 ≤ u j ∧ u j < 1)
    (htl : model.trans_prob.length = model.n_states)
    (htr : ∀ row ∈ model.trans_prob, row.length = model.n_states ∧ row.sum = 1) :
    ∀ (is : List ℕ) (state : ℕ) (data : List (List ℚ)) (seq : List ℕ)
      (dwells : List (List ℕ)) (dwell : ℕ), state < model.n_states →
      ∃ res, simLoop model noise u pois is state data seq dwells dwell = some res ∧
        res.1.length = data.length + is.length ∧
        res.2.1.length = seq.length + is.length ∧
        res.2.2.2 < model.n_states ∧
        (∀ x ∈ res.2.1, x ∈ seq ∨ x < model.n_states) := by
  intro is
  induction is with
  | nil =>
    intro state data seq dwells dwell hstate
    exact ⟨(data, seq, dwells, state), rfl, by simp, by simp, hstate, fun x hx => Or.inl hx⟩
  | cons i rest ih =>
    intro state data seq dwells dwell hstate
    have hlt : state < model.trans_prob.length := htl ▸ hstate
    have hrowmem : model.trans_prob.getD state [] ∈ model.trans_prob := by
      rw [List.getD_eq_getElem model.trans_prob [] hlt]
      exact List.getElem_mem hlt
    obtain ⟨hrlen, hrsum⟩ := htr _ hrowmem
    obtain ⟨next, hwc, hnext⟩ := weighted_choice_success model.n_states _ (u (i + 1))
      hrlen hrsum (hu (i + 1)).1 (hu (i + 1)).2
    rw [simLoop_cons_of_wc model noise u pois i rest state data seq dwells dwell next hwc]
    by_cases hne : next = state
    · rw [if_neg (by simp [hne])]
      obtain ⟨res, hres, hd, hs, hf, hmem⟩ := ih next _ (seq ++ [state]) dwells (dwell + 1) hnext
      refine ⟨res, hres, ?_, ?_, hf, ?_⟩
      · simp only [List.length_append, List.length_cons, List.length_nil] at hd ⊢
        omega
      · simp only [List.length_append, List.length_cons, List.length_nil] at hs ⊢
        omega
      · intro x hx
        rcases hmem x hx with h | h
        · rcases List.mem_append.mp h with h' | h'
          · exact Or.inl h'
          · simp only [List.mem_singleton] at h'
            exact Or.inr (h' ▸ hstate)
        · exact Or.inr h
    · rw [if_pos hne]
      obtain ⟨res, hres, hd, hs, hf, hmem⟩ := ih next _ (seq ++ [state])
        (appendDwell dwells state dwell) 1 hnext
      refine ⟨res, hres, ?_, ?_, hf, ?_⟩
      · simp only [List.length_append, List.length_cons, List.length_nil] at hd ⊢
        omega
      · simp only [List.length_append, List.length_cons, List.length_nil] at hs ⊢
        omega
      · intro x hx
        rcases hmem x hx with h | h
        · rcases List.mem_append.mp h with h' | h'
          · exact Or.inl h'
          · simp only [List.mem_singleton] at h'
            exact Or.inr (h' ▸ hstate)
        · exact Or.inr h

/-- C3: for every valid model (probability vector and rows non-negative and
normalized) and every length `L > 0`, `random_data` succeeds and its
observation and state sequences have length `L`, with every state index in
`[0, n_states)`. -/
theorem c3_trajectory_shape (model : Model) (L : ℤ) (noise : Bool) (u : ℕ → ℚ)
    (pois : ℕ → List ℚ → List ℚ)
    (hL : 0 < L)
    (hu : ∀ j, 0 ≤ u j ∧ u j < 1)
    (hsl : model.start_prob.length = model.n_states)
    (hss : model.start_prob.sum = 1)
    (hsn : ∀ x ∈ model.start_prob, 0 ≤ x)
    (htl : model.trans_prob.length = model.n_states)
    (htr : ∀ row ∈ model.trans_prob,
      row.length = model.n_states ∧ row.sum = 1 ∧ ∀ x ∈ row, 0 ≤ x) :
    ∃ data seq dwells, random_data model L noise u pois = some (data, seq, dwells) ∧
      (data.length : ℤ) = L ∧ (seq.length : ℤ) = L ∧ ∀ x ∈ seq, x < model.n_states := by
  obtain ⟨s0, hwc0, hs0⟩ := weighted_choice_success model.n_states model.start_prob (u 0)
    hsl hss (hu 0).1 (hu 0).2
  obtain ⟨res, hres, hd, hs, _, hmem⟩ := simLoop_shape model noise u pois hu htl
    (fun row hr => ⟨(htr row hr).1, (htr row hr).2.1⟩)
    (List.range L.toNat) s0 [] [] (List.replicate model.n_states []) 0 hs0
  refine ⟨res.1, res.2.1, res.2.2.1, ?_, ?_, ?_, ?_⟩
  · simp [random_data, random_data_full, hwc0, hres]
  · have hdl : res.1.length = L.toNat := by simpa using hd
    rw [hdl]
    exact Int.toNat_of_nonneg hL.le
  · have hsl' : res.2.1.length = L.toNat := by simpa using hs
    rw [hsl']
    exact Int.toNat_of_nonneg hL.le
  · intro x hx
    rcases hmem x hx with h | h
    · exact absurd h (List.not_mem_nil x)
    · exact h

/-- C3 (witness): the shape theorem instantiated at the alternating
scenario model with `L = 4`. -/
theorem c3_trajectory_shape_witness :
    ∃ data seq dwells,
      random_data alternatingModel 4 false uZero poisId = some (data, seq, dwells) ∧
      (data.length : ℤ) = 4 ∧ (seq.length : ℤ) = 4 ∧
      ∀ x ∈ seq, x < alternatingModel.n_states :=
  c3_trajectory_shape alternatingModel 4 false uZero poisId (by norm_num)
    (fun _ => ⟨le_refl 0, by norm_num [uZero]⟩)
    (by simp [alternatingModel])
    (by norm_num [alternatingModel])
    (by intro x hx; simp [alternatingModel] at hx; rcases hx with rfl | rfl <;> norm_num)
    (by simp [alternatingModel])
    (by
      intro row hr
      simp only [alternatingModel, List.mem_cons, List.not_mem_nil, or_false] at hr
      rcases hr with rfl | rfl <;>
        exact ⟨by simp [alternatingModel], by norm_num,
          by intro x hx; simp at hx; rcases hx with rfl | rfl <;> norm_num⟩)

lemma simLoop_nonoise_map (model : Model) (u : ℕ → ℚ) (pois : ℕ → List ℚ → List ℚ) :
    ∀ (is : List ℕ) (state : ℕ) (data : List (List ℚ)) (seq : List ℕ)
      (dwells : List (List ℕ)) (dwell : ℕ) res,
      simLoop model false u pois is state data seq dwells dwell = some res →
      data = seq.map (fun s => model.emissions.getD s []) →
      res.1 = res.2.1.map (fun s => model.emissions.getD s []) := by
  intro is
  induction is with
  | nil =>
    intro state data seq dwells dwell res h hmap
    simp only [simLoop, Option.some.injEq] at h
    subst h
    exact hmap
  | cons i rest ih =>
    intro state data seq dwells dwell res h hmap
    cases hwc : weighted_choice (List.range model.n_states)
        (model.trans_prob.getD state []) (u (i + 1)) with
    | none =>
      rw [simLoop_cons_of_wc_none model false u pois i rest state data seq dwells dwell hwc] at h
      simp at h
    | some next =>
      rw [simLoop_cons_of_wc model false u pois i rest state data seq dwells dwell next hwc] at h
      have hmap' : data ++ [if false then pois i (model.emissions.getD state [])
            else model.emissions.getD state []] =
          (seq ++ [state]).map (fun s => model.emissions.getD s []) := by
        simp [hmap]
      by_cases hne : next = state
      · rw [if_neg (by simp [hne])] at h
        exact ih next _ (seq ++ [state]) dwells (dwell + 1) res h hmap'
      · rw [if_pos hne] at h
        exact ih next _ (seq ++ [state]) (appendDwell dwells state dwell) 1 res h hmap'

/-- C8: for every valid model and length `L > 0`, with noise disabled the
simulator passes emission rows through unchanged: it succeeds, and for every
step `i` the observation at `i` is exactly the emissions row indexed by the
state at `i` (equivalently, `data` is `state_seq` mapped through the
emissions table). -/
theorem c8_noiseless_passthrough (model : Model) (L : ℤ) (u : ℕ → ℚ)
    (pois : ℕ → List ℚ → List ℚ)
    (hL : 0 < L)
    (hu : ∀ j, 0 ≤ u j ∧ u j < 1)
    (hsl : model.start_prob.length = model.n_states)
    (hss : model.start_prob.sum = 1)
    (hsn : ∀ x ∈ model.start_prob, 0 ≤ x)
    (htl : model.trans_prob.length = model.n_states)
    (htr : ∀ row ∈ model.trans_prob,
      row.length = model.n_states ∧ row.sum = 1 ∧ ∀ x ∈ row, 0 ≤ x) :
    ∃ data seq dwells, random_data model L false u pois = some (data, seq, dwells) ∧
      data = seq.map (fun s => model.emissions.getD s []) ∧
      ∀ i < seq.length, data.getD i [] = model.emissions.getD (seq.getD i 0) [] := by
  obtain ⟨s0, hwc0, hs0⟩ := weighted_choice_success model.n_states model.start_prob (u 0)
    hsl hss (hu 0).1 (hu 0).2
  obtain ⟨res, hres, hd, hs, _, hmem⟩ := simLoop_shape model false u pois hu htl
    (fun row hr => ⟨(htr row hr).1, (htr row hr).2.1⟩)
    (List.range L.toNat) s0 [] [] (List.replicate model.n_states []) 0 hs0
  have hmap : res.1 = res.2.1.map (fun s => model.emissions.getD s []) :=
    simLoop_nonoise_map model u pois (List.range L.toNat) s0 [] []
      (List.replicate model.n_states []) 0 res hres (by simp)
  refine ⟨res.1, res.2.1, res.2.2.1, ?_, hmap, ?_⟩
  · simp [random_data, random_data_full, hwc0, hres]
  · intro i hi
    have hi' : i < (res.2.1.map (fun s => model.emissions.getD s [])).length := by
      simpa using hi
    rw [hmap, List.getD_eq_getElem _ _ hi', List.getD_eq_getElem _ _ hi, List.getElem_map]

/-- C8 (witness): the noiseless pass-through theorem instantiated at the
alternating scenario model with `L = 4`. -/
theorem c8_noiseless_passthrough_witness :
    ∃ data seq dwells,
      random_data alternatingModel 4 false uZero poisId = some (data, seq, dwells) ∧
      data = seq.map (fun s => alternatingModel.emissions.getD s []) ∧
      ∀ i < seq.length,
        data.getD i [] = alternatingModel.emissions.getD (seq.getD i 0) [] :=
  c8_noiseless_passthrough alternatingModel 4 uZero poisId (by norm_num)
    (fun _ => ⟨le_refl 0, by norm_num [uZero]⟩)
    (by simp [alternatingModel])
    (by norm_num [alternatingModel])
    (by intro x hx; simp [alternatingModel] at hx; rcases hx with rfl | rfl <;> norm_num)
    (by simp [alternatingModel])
    (by
      intro row hr
      simp only [alternatingModel, List.mem_cons, List.not_mem_nil, or_false] at hr
      rcases hr with rfl | rfl <;>
        exact ⟨by simp [alternatingModel], by norm_num,
          by intro x hx; simp at hx; rcases hx with rfl | rfl <;> norm_num⟩)

lemma sum_map_div (l : List ℚ) (s : ℚ) : (l.map (fun x => x / s)).sum = l.sum / s := by
  induction l with
  | nil => simp
  | cons a t ih => simp [ih, div_add_div_same]

lemma sum_pos_of_mem (a : ℚ) (hpos : 0 < a) :
    ∀ l : List ℚ, (∀ x ∈ l, 0 ≤ x) → a ∈ l → 0 < l.sum := by
  intro l
  induction l with
  | nil => intro _ ha; simp at ha
  | cons b t ih =>
    intro hnn ha
    have hb : 0 ≤ b := hnn b (by simp)
    have ht : ∀ x ∈ t, 0 ≤ x := fun x hx => hnn x (by simp [hx])
    simp only [List.sum_cons]
    rcases List.mem_cons.mp ha with rfl | ha'
    · have := List.sum_nonneg ht
      linarith
    · have := ih ht ha'
      linarith

lemma mem_set_self (l : List ℚ) (i : ℕ) (a : ℚ) (h : i < l.length) : a ∈ l.set i a := by
  have h' : i < (l.set i a).length := by simpa using h
  have hmem := List.getElem_mem h'
  rwa [List.getElem_set_self h'] at hmem

lemma rmfe_invariants (E : List (List ℚ)) (ur us : ℕ → ℚ)
    (hE : E ≠ [])
    (hur : ∀ i, 0 < ur i) (hus : ∀ i, 0 < us i) :
    (random_model_from_emissions E ur us).n_states = E.length ∧
    (random_model_from_emissions E ur us).start_prob.length = E.length ∧
    (random_model_from_emissions E ur us).start_prob.sum = 1 ∧
    (∀ x ∈ (random_model_from_emissions E ur us).start_prob, 0 ≤ x) ∧
    (random_model_from_emissions E ur us).trans_prob.length = E.length ∧
    (∀ row ∈ (random_model_from_emissions E ur us).trans_prob,
      row.length = E.length ∧ row.sum = 1 ∧ ∀ x ∈ row, 0 ≤ x) ∧
    (random_model_from_emissions E ur us).emissions = E := by
  have hn : 0 < E.length := List.length_pos.mpr hE
  have hsd_nonneg : ∀ x ∈ (List.range E.length).map us, 0 ≤ x := by
    intro x hx
    obtain ⟨i, _, rfl⟩ := List.mem_map.mp hx
    exact (hus i).le
  have hsd_pos : 0 < ((List.range E.length).map us).sum := by
    refine List.sum_pos _ ?_ ?_
    · intro x hx
      obtain ⟨i, _, rfl⟩ := List.mem_map.mp hx
      exact hus i
    · simp only [ne_eq, List.map_eq_nil_iff, List.range_eq_nil]
      omega
  refine ⟨rfl, by simp [random_model_from_emissions], ?_, ?_, by simp [random_model_from_emissions], ?_, rfl⟩
  · show (((List.range E.length).map us).map
      (fun x => x / ((List.range E.length).map us).sum)).sum = 1
    rw [sum_map_div]
    exact div_self hsd_pos.ne'
  · intro x hx
    obtain ⟨y, hy, rfl⟩ := List.mem_map.mp hx
    exact div_nonneg (hsd_nonneg y hy) hsd_pos.le
  · intro row hrow
    obtain ⟨i, hi, rfl⟩ := List.mem_map.mp hrow
    have hi' : i < E.length := List.mem_range.mp hi
    set t := ((List.range E.length).map
      (fun j => ur i * us (E.length + i * E.length + j))).set i (ur i) with ht_def
    have ht_len : t.length = E.length := by simp [ht_def]
    have ht_nonneg : ∀ x ∈ t, 0 ≤ x := by
      intro x hx
      rcases List.mem_or_eq_of_mem_set hx with h | h
      · obtain ⟨j, _, rfl⟩ := List.mem_map.mp h
        exact mul_nonneg (hur i).le (hus _).le
      · exact h ▸ (hur i).le
    have ht_mem : ur i ∈ t := mem_set_self _ i _ (by simp [hi'])
    have ht_pos : 0 < t.sum := sum_pos_of_mem (ur i) (hur i) t ht_nonneg ht_mem
    refine ⟨by simp [ht_len], ?_, ?_⟩
    · rw [sum_map_div]
      exact div_self ht_pos.ne'
    · intro x hx
      obtain ⟨y, hy, rfl⟩ := List.mem_map.mp hx
      exact div_nonneg (ht_nonneg y hy) ht_pos.le

/-- C4: for every `n_states ≥ 1` and `n_obs ≥ 1`, and every run of the random
streams with all draws in `(0,1)` (a draw of exactly 0 would make the source
divide by zero), the model built by `random_model` (which delegates to
`random_model_from_emissions`) has a start vector of length `n_states` that is
non-negative and sums to 1, an `n_states`-row transition matrix whose rows
have length `n_states`, are non-negative and sum to 1, and an emissions
matrix of shape `(n_states, n_obs)`. -/
theorem c4_model_factory_invariants (n_states n_obs : ℕ) (ri : ℕ → ℕ) (ur us : ℕ → ℚ)
    (hn : 1 ≤ n_states) (hm : 1 ≤ n_obs)
    (hur : ∀ i, 0 < ur i) (hus : ∀ i, 0 < us i) :
    (random_model n_states n_obs ri ur us).n_states = n_states ∧
    (random_model n_states n_obs ri ur us).n_obs = n_obs ∧
    (random_model n_states n_obs ri ur us).start_prob.length = n_states ∧
    (random_model n_states n_obs ri ur us).start_prob.sum = 1 ∧
    (∀ x ∈ (random_model n_states n_obs ri ur us).start_prob, 0 ≤ x) ∧
    (random_model n_states n_obs ri ur us).trans_prob.length = n_states ∧
    (∀ row ∈ (random_model n_states n_obs ri ur us).trans_prob,
      row.length = n_states ∧ row.sum = 1 ∧ ∀ x ∈ row, 0 ≤ x) ∧
    (random_model n_states n_obs ri ur us).emissions.length = n_states ∧
    (∀ row ∈ (random_model n_states n_obs ri ur us).emissions, row.length = n_obs) := by
  set E := (List.range n_states).map
    (fun i => (List.range n_obs).map (fun j => ((ri (i * n_obs + j) : ℚ)))) with hEdef
  have hElen : E.length = n_states := by simp [hEdef]
  have hEne : E ≠ [] := by
    intro hc
    rw [hc] at hElen
    simp at hElen
    omega
  have hrm : random_model n_states n_obs ri ur us = random_model_from_emissions E ur us := rfl
  have hobs : (random_model_from_emissions E ur us).n_obs = n_obs := by
    show (E.getD 0 []).length = n_obs
    have h0 : 0 < E.length := by omega
    rw [List.getD_eq_getElem E [] h0]
    simp [hEdef]
  have hrows : ∀ row ∈ E, row.length = n_obs := by
    intro row hr
    rw [hEdef] at hr
    obtain ⟨i, _, rfl⟩ := List.mem_map.mp hr
    simp
  obtain ⟨h1, h2, h3, h4, h5, h6, h7⟩ := rmfe_invariants E ur us hEne hur hus
  rw [hrm]
  exact ⟨by rw [h1, hElen], hobs, by rw [h2, hElen], h3, h4, by rw [h5, hElen],
    fun row hr => ⟨by rw [(h6 row hr).1, hElen], (h6 row hr).2.1, (h6 row hr).2.2⟩,
    by rw [h7, hElen], by rw [h7]; exact hrows⟩

/-- C4 (witness): the factory invariants instantiated at `n_states = 2`,
`n_obs = 1`, constant draw streams. -/
theorem c4_model_factory_invariants_witness :
    (random_model 2 1 (fun _ => 7) (fun _ => 1 / 2) (fun _ => 1 / 2)).n_states = 2 ∧
    (random_model 2 1 (fun _ => 7) (fun _ => 1 / 2) (fun _ => 1 / 2)).n_obs = 1 ∧
    (random_model 2 1 (fun _ => 7) (fun _ => 1 / 2) (fun _ => 1 / 2)).start_prob.length = 2 ∧
    (random_model 2 1 (fun _ => 7) (fun _ => 1 / 2) (fun _ => 1 / 2)).start_prob.sum = 1 ∧
    (∀ x ∈ (random_model 2 1 (fun _ => 7) (fun _ => 1 / 2) (fun _ => 1 / 2)).start_prob, 0 ≤ x) ∧
    (random_model 2 1 (fun _ => 7) (fun _ => 1 / 2) (fun _ => 1 / 2)).trans_prob.length = 2 ∧
    (∀ row ∈ (random_model 2 1 (fun _ => 7) (fun _ => 1 / 2) (fun _ => 1 / 2)).trans_prob,
      row.length = 2 ∧ row.sum = 1 ∧ ∀ x ∈ row, 0 ≤ x) ∧
    (random_model 2 1 (fun _ => 7) (fun _ => 1 / 2) (fun _ => 1 / 2)).emissions.length = 2 ∧
    (∀ row ∈ (random_model 2 1 (fun _ => 7) (fun _ => 1 / 2) (fun _ => 1 / 2)).emissions,
      row.length = 1) :=
  c4_model_factory_invariants 2 1 (fun _ => 7) (fun _ => 1 / 2) (fun _ => 1 / 2)
    (by norm_num) (by norm_num) (fun _ => by norm_num) (fun _ => by norm_num)

lemma rleRev_append_singleton (l : List ℕ) (x : ℕ) :
    rleRev (l ++ [x]) = rleRevStep (rleRev l) x := by
  simp [rleRev, List.foldl_append]

lemma recordRunsAux_append (acc : List (List ℕ)) (runs : List (ℕ × ℕ)) (s l : ℕ) :
    recordRunsAux acc (runs ++ [(s, l)]) = appendDwell (recordRunsAux acc runs) s l := by
  induction runs generalizing acc with
  | nil => simp [recordRunsAux]
  | cons hd tl ih =>
    obtain ⟨a, b⟩ := hd
    simp [recordRunsAux, ih]

lemma recordRuns_append (n : ℕ) (runs : List (ℕ × ℕ)) (hne : runs ≠ []) (s l : ℕ) :
    recordRuns n (runs ++ [(s, l)]) = appendDwell (recordRuns n runs) s l := by
  cases runs with
  | nil => exact absurd rfl hne
  | cons hd tl =>
    obtain ⟨a, b⟩ := hd
    simp [recordRuns, recordRunsAux_append]

lemma random_data_full_of_wc (model : Model) (L : ℤ) (noise : Bool) (u : ℕ → ℚ)
    (pois : ℕ → List ℚ → List ℚ) (s0 : ℕ)
    (hwc : weighted_choice (List.range model.n_states) model.start_prob (u 0) = some s0) :
    random_data_full model L noise u pois =
      simLoop model noise u pois (List.range L.toNat) s0 [] []
        (List.replicate model.n_states []) 0 := by
  simp only [random_data_full, hwc]

lemma random_data_full_of_wc_none (model : Model) (L : ℤ) (noise : Bool) (u : ℕ → ℚ)
    (pois : ℕ → List ℚ → List ℚ)
    (hwc : weighted_choice (List.range model.n_states) model.start_prob (u 0) = none) :
    random_data_full model L noise u pois = none := by
  simp only [random_data_full, hwc]

lemma simLoop_dwells_inv (model : Model) (noise : Bool) (u : ℕ → ℚ)
    (pois : ℕ → List ℚ → List ℚ) :
    ∀ (is : List ℕ) (state : ℕ) (data : List (List ℚ)) (seq : List ℕ)
      (dwells : List (List ℕ)) (dwell m : ℕ) (rest : List (ℕ × ℕ)) res,
      rleRev (seq ++ [state]) = (state, m) :: rest →
      dwells = recordRuns model.n_states rest.reverse →
      (rest = [] → dwell + 1 = m) →
      (rest ≠ [] → dwell = m) →
      simLoop model noise u pois is state data seq dwells dwell = some res →
      res.2.2.1 = recordRuns model.n_states (completedRuns (res.2.1 ++ [res.2.2.2])) := by
  intro is
  induction is with
  | nil =>
    intro state data seq dwells dwell m rest res hrle hdw _ _ h
    simp only [simLoop, Option.some.injEq] at h
    subst h
    show dwells = recordRuns model.n_states (completedRuns (seq ++ [state]))
    rw [hdw]
    unfold completedRuns
    rw [hrle]
    rfl
  | cons i tail ih =>
    intro state data seq dwells dwell m rest res hrle hdw hm1 hm2 h
    cases hwc : weighted_choice (List.range model.n_states)
        (model.trans_prob.getD state []) (u (i + 1)) with
    | none =>
      rw [simLoop_cons_of_wc_none model noise u pois i tail state data seq dwells dwell hwc] at h
      simp at h
    | some next =>
      rw [simLoop_cons_of_wc model noise u pois i tail state data seq dwells dwell next hwc] at h
      have hchain : rleRev ((seq ++ [state]) ++ [next]) = rleRevStep ((state, m) :: rest) next := by
        rw [rleRev_append_singleton, hrle]
      by_cases hne : next = state
      · rw [if_neg (by simp [hne])] at h
        subst hne
        refine ih next _ (seq ++ [next]) dwells (dwell + 1) (m + 1) rest res ?_ hdw ?_ ?_ h
        · rw [hchain]
          simp [rleRevStep]
        · intro hr
          have := hm1 hr
          omega
        · intro hr
          have := hm2 hr
          omega
      · rw [if_pos hne] at h
        refine ih next _ (seq ++ [state]) (appendDwell dwells state dwell) 1 1
          ((state, m) :: rest) res ?_ ?_ ?_ ?_ h
        · rw [hchain]
          simp [rleRevStep, hne]
        · rw [List.reverse_cons]
          rcases eq_or_ne rest [] with rfl | hrest
          · have hm : dwell + 1 = m := hm1 rfl
            rw [hdw]
            show appendDwell (recordRuns model.n_states []) state dwell =
              recordRuns model.n_states ([] ++ [(state, m)])
            have hdm : dwell = m - 1 := by omega
            simp [recordRuns, recordRunsAux, hdm]
          · have hm : dwell = m := hm2 hrest
            rw [recordRuns_append model.n_states rest.reverse (by simpa using hrest) state m]
            rw [hdw, hm]
        · intro hc
          simp at hc
        · intro _
          rfl

/-- C10: in every trajectory produced by the simulator, because the dwell
counter is incremented after the transition check instead of before it, the
recorded dwell lists are exactly the completed runs of the sampled state chain
(`state_seq` extended by the one state sampled at the last step) with the
first completed run recorded as its true length minus one and every
subsequent completed run at its true length — which is what `recordRuns`
computes from the run-length encoding. -/
theorem c10_first_dwell_recorded_short (model : Model) (L : ℤ) (noise : Bool)
    (u : ℕ → ℚ) (pois : ℕ → List ℚ → List ℚ) (data : List (List ℚ)) (seq : List ℕ)
    (dwells : List (List ℕ)) (final : ℕ)
    (h : random_data_full model L noise u pois = some (data, seq, dwells, final)) :
    dwells = recordRuns model.n_states (completedRuns (seq ++ [final])) := by
  cases hwc : weighted_choice (List.range model.n_states) model.start_prob (u 0) with
  | none =>
    rw [random_data_full_of_wc_none model L noise u pois hwc] at h
    simp at h
  | some s0 =>
    rw [random_data_full_of_wc model L noise u pois s0 hwc] at h
    exact simLoop_dwells_inv model noise u pois (List.range L.toNat) s0 [] []
      (List.replicate model.n_states []) 0 1 [] (data, seq, dwells, final)
      (by simp [rleRev, rleRevStep]) (by simp [recordRuns]) (fun _ => rfl)
      (fun hc => absurd rfl hc) h

/-- C10 (witness): in the alternating scenario (`L = 4`), the recorded dwell
lists `{0:[0,1],1:[1,1]}` coincide with `recordRuns` applied to the completed
runs of the chain `[0,1,0,1] ++ [0]`. -/
theorem c10_first_dwell_recorded_short_witness :
    [[0, 1], [1, 1]] =
      recordRuns alternatingModel.n_states (completedRuns ([0, 1, 0, 1] ++ [0])) :=
  c10_first_dwell_recorded_short alternatingModel 4 false uZero poisId
    [[10, 0], [0, 20], [10, 0], [0, 20]] [0, 1, 0, 1] [[0, 1], [1, 1]] 0
    (by simp [random_data_full, simLoop, weighted_choice, wcAux, appendDwell,
      alternatingModel, uZero, List.range, List.range.loop])

end FretHmm
